import Mathlib

/-!
# CrabSafe core: shallow embedding and verification

This file embeds the configuration / materialization core of the CrabSafe
scaffolder (crate `copy_crab`) and proves properties of it.

Rust strings are modelled as Lean `String` (a wrapper around `List Char`);
the handful of `str` primitives the source uses (`trim`, `starts_with`,
`contains`, `split("\n")`, `strip_suffix`, `join`) are given explicit
executable models below, named with a `rust` prefix-marker.  The filesystem
is modelled as a state record of a file map and a directory predicate, and
the shared JSON settings document as an inductive `Json` value; every
fallible operation returns `Except`/`Option`.

Template payloads (the `ts/*.ts` snippets pulled in with `include_str` in
`ts_file_data.rs`) are opaque blobs, so every function that reads them is
parameterized by a payload map `impl : Feature → String`.
-/

namespace CrabSafe

/-! ## Embeddings of the Rust string primitives used by the source -/

/-- Model of Rust `str::trim`: drop whitespace from both ends. -/
def rustTrim (s : String) : String :=
  ⟨((s.data.dropWhile Char.isWhitespace).reverse.dropWhile Char.isWhitespace).reverse⟩

/-- Model of Rust `str::starts_with`. -/
def rustStartsWith (s pat : String) : Bool :=
  pat.data.isPrefixOf s.data

/-- Substring occurrence test on character lists (helper for `rustContains`). -/
def hasSubstring (pat : List Char) : List Char → Bool
  | [] => pat.isEmpty
  | c :: rest => pat.isPrefixOf (c :: rest) || hasSubstring pat rest

/-- Model of Rust `str::contains` with a literal pattern. -/
def rustContains (s pat : String) : Bool :=
  hasSubstring pat.data s.data

/-- Model of Rust `str::ends_with`. -/
def rustEndsWith (s pat : String) : Bool :=
  pat.data.isSuffixOf s.data

/-- Model of Rust `str::strip_suffix`. -/
def rustStripSuffix (s pat : String) : Option String :=
  if pat.data.isSuffixOf s.data then
    some ⟨s.data.take (s.data.length - pat.data.length)⟩
  else none

/-- Split a character list at newline characters (helper for `rustSplitNl`). -/
def splitLinesAux : List Char → List (List Char)
  | [] => [[]]
  | c :: rest =>
    if c = '\n' then [] :: splitLinesAux rest
    else
      match splitLinesAux rest with
      | [] => [[c]]
      | l :: ls => (c :: l) :: ls

/-- Model of Rust `str::split("\n")`. -/
def rustSplitNl (s : String) : List String :=
  (splitLinesAux s.data).map fun l => ⟨l⟩

/-- Model of Rust `Vec<String>::join("\n")`. -/
def rustJoinNl (lines : List String) : String :=
  ⟨List.intercalate ['\n'] (lines.map String.data)⟩

/-- Concatenation of a list of strings (model of repeated `push_str`). -/
def concatStrings : List String → String
  | [] => ""
  | a :: r => a ++ concatStrings r

/-- Drop the final character of a string, as Rust `strip_suffix` does for a
one-character suffix. -/
def strDropLast (s : String) : String := ⟨s.data.dropLast⟩

/-! ## Data model (`models/mod.rs`, `config_handler`, `feature_set.rs`,
`chosen_features.rs`) -/

/-- `Runtime` enum from `models/mod.rs`. -/
inductive Runtime where
  | Deno
  | NodeJs
  | ClientSide
deriving DecidableEq, Repr

/-- `Modularity` enum from `models/mod.rs`. -/
inductive Modularity where
  | SingleFile
  | SplitFiles
deriving DecidableEq, Repr

/-- `Feature` enum from `models/config_handler/mod.rs`. -/
inductive Feature where
  | Core
  | Example
  | Option
  | Result
  | Parsers
deriving DecidableEq, Repr

namespace Feature

/-- `Feature::get_all` (strum `EnumIter` order = declaration order). -/
def get_all : List Feature :=
  [Feature.Core, Feature.Example, Feature.Option, Feature.Result, Feature.Parsers]

/-- `Feature::get_file_name`. -/
def get_file_name : Feature → String
  | Feature.Core => "core.ts"
  | Feature.Example => "example.ts"
  | Feature.Option => "option.ts"
  | Feature.Result => "result.ts"
  | Feature.Parsers => "parsers.ts"

end Feature

/-- `FeatureSet` enum from `models/feature_set.rs`. -/
inductive FeatureSet where
  | All
  | Core
  | CorePlus
deriving DecidableEq, Repr

/-- `FeatureSet::get_feature_list`. -/
def FeatureSet.get_feature_list : FeatureSet → List Feature
  | FeatureSet.All => Feature.get_all
  | FeatureSet.Core => [Feature.Core]
  | FeatureSet.CorePlus => [Feature.Core, Feature.Option, Feature.Result]

/-- `ChosenFeatures` enum from `models/chosen_features.rs`. -/
inductive ChosenFeatures where
  | Preset (preset_name : FeatureSet)
  | Custom (features : List Feature)
deriving DecidableEq, Repr

/-- `ChosenFeatures::get_feature_list`. -/
def ChosenFeatures.get_feature_list : ChosenFeatures → List Feature
  | ChosenFeatures.Custom features => features
  | ChosenFeatures.Preset preset_name => preset_name.get_feature_list

/-- `ProjectChoices` struct from `models/project_choices.rs`. -/
structure ProjectChoices where
  runtime : Runtime
  chosen_directory : String
  feature_set : ChosenFeatures
  modularity : Modularity
deriving DecidableEq, Repr

/-! ## `parse_path` (duplicated in `main.rs` and `models/project_choices.rs`) -/

/-- `parse_path`: split the chosen directory into (path, separator). -/
def parse_path (chosen_directory : String) : String × String :=
  match rustStripSuffix chosen_directory "/" with
  | some rem_path => (rem_path, "/")
  | none =>
    match rustStripSuffix chosen_directory "\\" with
    | some rem_path => (rem_path, "\\")
    | none =>
      if rustContains chosen_directory "/" then (chosen_directory, "/")
      else (chosen_directory, "\\")

/-! ## JSON values and the serde encoding of `ProjectChoices`

The shared settings document (`copy-paste.json`) is modelled as a parsed
JSON value; a settings-file state is `Option Json` (`none` = file absent).
-/

/-- Parsed JSON value (model of `serde_json::Value`). -/
inductive Json where
  | null : Json
  | bool : Bool → Json
  | num : Int → Json
  | str : String → Json
  | arr : List Json → Json
  | obj : List (String × Json) → Json

/-- First-match lookup in an association list (model of JSON-object lookup). -/
def lookupA {α : Type} : List (String × α) → String → Option α
  | [], _ => none
  | (k, v) :: rest, key => if k = key then some v else lookupA rest key

/-- Insert-or-replace in an association list (model of JSON-object insert). -/
def setA {α : Type} : List (String × α) → String → α → List (String × α)
  | [], key, v => [(key, v)]
  | (k, w) :: rest, key, v =>
    if k = key then (key, v) :: rest else (k, w) :: setA rest key v

/-- Remove a key from an association list (model of JSON-object remove). -/
def eraseA {α : Type} : List (String × α) → String → List (String × α)
  | [], _ => []
  | (k, w) :: rest, key =>
    if k = key then rest else (k, w) :: eraseA rest key

/-- `serde_json::Value::get`: key lookup, `none` on non-objects. -/
def jsonGet (j : Json) (key : String) : Option Json :=
  match j with
  | Json.obj kvs => lookupA kvs key
  | _ => none

/-- serde serialization of `Runtime` (unit variant → string). -/
def Runtime.toJson : Runtime → Json
  | Runtime.Deno => Json.str "Deno"
  | Runtime.NodeJs => Json.str "NodeJs"
  | Runtime.ClientSide => Json.str "ClientSide"

/-- serde deserialization of `Runtime`. -/
def Runtime.fromJson : Json → Option Runtime
  | Json.str s =>
    if s = "Deno" then some Runtime.Deno
    else if s = "NodeJs" then some Runtime.NodeJs
    else if s = "ClientSide" then some Runtime.ClientSide
    else none
  | _ => none

/-- serde serialization of `Modularity`. -/
def Modularity.toJson : Modularity → Json
  | Modularity.SingleFile => Json.str "SingleFile"
  | Modularity.SplitFiles => Json.str "SplitFiles"

/-- serde deserialization of `Modularity`. -/
def Modularity.fromJson : Json → Option Modularity
  | Json.str s =>
    if s = "SingleFile" then some Modularity.SingleFile
    else if s = "SplitFiles" then some Modularity.SplitFiles
    else none
  | _ => none

/-- serde serialization of `FeatureSet`. -/
def FeatureSet.toJson : FeatureSet → Json
  | FeatureSet.All => Json.str "All"
  | FeatureSet.Core => Json.str "Core"
  | FeatureSet.CorePlus => Json.str "CorePlus"

/-- serde deserialization of `FeatureSet`. -/
def FeatureSet.fromJson : Json → Option FeatureSet
  | Json.str s =>
    if s = "All" then some FeatureSet.All
    else if s = "Core" then some FeatureSet.Core
    else if s = "CorePlus" then some FeatureSet.CorePlus
    else none
  | _ => none

/-- serde serialization of `Feature`. -/
def Feature.toJson : Feature → Json
  | Feature.Core => Json.str "Core"
  | Feature.Example => Json.str "Example"
  | Feature.Option => Json.str "Option"
  | Feature.Result => Json.str "Result"
  | Feature.Parsers => Json.str "Parsers"

/-- serde deserialization of `Feature`. -/
def featureFromJson : Json → Option Feature
  | Json.str s =>
    if s = "Core" then some Feature.Core
    else if s = "Example" then some Feature.Example
    else if s = "Option" then some Feature.Option
    else if s = "Result" then some Feature.Result
    else if s = "Parsers" then some Feature.Parsers
    else none
  | _ => none

/-- serde deserialization of a JSON array of features. -/
def featuresFromJson : List Json → Option (List Feature)
  | [] => some []
  | j :: rest =>
    match featureFromJson j, featuresFromJson rest with
    | some f, some fs => some (f :: fs)
    | _, _ => none

/-- serde serialization of `ChosenFeatures` (externally tagged enum). -/
def ChosenFeatures.toJson : ChosenFeatures → Json
  | ChosenFeatures.Preset preset_name =>
    Json.obj [("Preset", Json.obj [("preset_name", preset_name.toJson)])]
  | ChosenFeatures.Custom features =>
    Json.obj [("Custom", Json.obj [("features", Json.arr (features.map Feature.toJson))])]

/-- serde deserialization of `ChosenFeatures`. -/
def ChosenFeatures.fromJson (j : Json) : Option ChosenFeatures :=
  match j with
  | Json.obj [(tag, v)] =>
    if tag = "Preset" then
      match jsonGet v "preset_name" with
      | some pv =>
        match FeatureSet.fromJson pv with
        | some p => some (ChosenFeatures.Preset p)
        | none => none
      | none => none
    else if tag = "Custom" then
      match jsonGet v "features" with
      | some (Json.arr js) =>
        match featuresFromJson js with
        | some fs => some (ChosenFeatures.Custom fs)
        | none => none
      | _ => none
    else none
  | _ => none

/-- serde serialization of `ProjectChoices` (field names as in the struct). -/
def ProjectChoices.toJson (c : ProjectChoices) : Json :=
  Json.obj
    [ ("runtime", c.runtime.toJson),
      ("chosen_directory", Json.str c.chosen_directory),
      ("feature_set", c.feature_set.toJson),
      ("modularity", c.modularity.toJson) ]

/-- serde deserialization of `ProjectChoices`. -/
def ProjectChoices.fromJson (j : Json) : Option ProjectChoices :=
  match jsonGet j "runtime" with
  | none => none
  | some jr =>
    match Runtime.fromJson jr with
    | none => none
    | some r =>
      match jsonGet j "chosen_directory" with
      | some (Json.str d) =>
        match jsonGet j "feature_set" with
        | none => none
        | some jf =>
          match ChosenFeatures.fromJson jf with
          | none => none
          | some f =>
            match jsonGet j "modularity" with
            | none => none
            | some jm =>
              match Modularity.fromJson jm with
              | none => none
              | some m => some ⟨r, d, f, m⟩
      | _ => none

/-! ## Choice Builder (`models/project_builder.rs`) -/

/-- `ProjectBuilder` struct: one optional slot per required choice. -/
structure ProjectBuilder where
  runtime : Option Runtime
  chosen_directory : Option String
  feature_set : Option ChosenFeatures
  modularity : Option Modularity
deriving DecidableEq, Repr

/-- The field a `build` panic names, in the source's check order. -/
inductive BuildField where
  | runtime
  | destination
  | featureSet
  | modularity
deriving DecidableEq, Repr

namespace ProjectBuilder

/-- `ProjectBuilder::new` (all fields default to `None`). -/
def new : ProjectBuilder := ⟨none, none, none, none⟩

/-- `ProjectBuilder::set_runtime`. -/
def set_runtime (b : ProjectBuilder) (chosen_runtime : Runtime) : ProjectBuilder :=
  { b with runtime := some chosen_runtime }

/-- `ProjectBuilder::set_chosen_dir`. -/
def set_chosen_dir (b : ProjectBuilder) (chosen_directory : String) : ProjectBuilder :=
  { b with chosen_directory := some chosen_directory }

/-- `ProjectBuilder::set_feature_set`. -/
def set_feature_set (b : ProjectBuilder) (chosen_feature_set : ChosenFeatures) : ProjectBuilder :=
  { b with feature_set := some chosen_feature_set }

/-- `ProjectBuilder::set_modularity`. -/
def set_modularity (b : ProjectBuilder) (modularity : Modularity) : ProjectBuilder :=
  { b with modularity := some modularity }

/-- `ProjectBuilder::build`: the source panics on the first missing field,
checking runtime, then directory, then feature set, then modularity. Each
panic is modelled as the error naming that field. -/
def build (b : ProjectBuilder) : Except BuildField ProjectChoices :=
  match b.runtime with
  | none => Except.error BuildField.runtime
  | some runtime =>
    match b.chosen_directory with
    | none => Except.error BuildField.destination
    | some chosen_directory =>
      match b.feature_set with
      | none => Except.error BuildField.featureSet
      | some feature_set =>
        match b.modularity with
        | none => Except.error BuildField.modularity
        | some modularity => Except.ok ⟨runtime, chosen_directory, feature_set, modularity⟩

end ProjectBuilder

/-! ## Filesystem model

Paths are the exact strings the source builds with `format!`.  A state
holds the file map and the set of existing directories.  `std::fs` calls
that can fail return `Option`/`Except`; directory paths are normalised by
stripping one trailing separator, matching how the OS treats the trailing
separators the source sometimes appends. -/

/-- Filesystem state: file contents by path, and existing directories. -/
structure FsState where
  files : String → Option String
  dirs : String → Bool

/-- Strip one trailing `/` or `\` from a path (directory-path normalisation). -/
def stripTrailingSep (s : String) : String :=
  if s.data.getLast? = some '/' ∨ s.data.getLast? = some '\\' then ⟨s.data.dropLast⟩ else s

/-- Is `p` strictly inside directory `parent` (with either separator)? -/
def pathInside (parent p : String) : Bool :=
  rustStartsWith p (parent ++ "/") || rustStartsWith p (parent ++ "\\")

/-- `std::fs::write`: create or overwrite a file. -/
def fsWrite (fs : FsState) (path content : String) : FsState :=
  { fs with files := fun k => if k = path then some content else fs.files k }

/-- `std::fs::remove_file`, with the result ignored except for logging:
removes the file if present, leaves the state alone otherwise. -/
def fsRemoveFileQuiet (fs : FsState) (path : String) : FsState :=
  { fs with files := fun k => if k = path then none else fs.files k }

/-- `std::fs::create_dir`: fails if the directory already exists. -/
def fsCreateDir (fs : FsState) (path : String) : Option FsState :=
  let p := stripTrailingSep path
  if fs.dirs p then none
  else some { fs with dirs := fun d => if d = p then true else fs.dirs d }

/-- `std::fs::create_dir_all`: never fails on an existing directory. -/
def fsCreateDirAll (fs : FsState) (path : String) : FsState :=
  let p := stripTrailingSep path
  { fs with dirs := fun d => if d = p then true else fs.dirs d }

/-- `std::fs::remove_dir_all`: fails if the directory is absent, otherwise
removes the directory and everything under it. -/
def fsRemoveDirAll (fs : FsState) (path : String) : Option FsState :=
  let p := stripTrailingSep path
  if fs.dirs p then
    some
      { files := fun k => if pathInside p k then none else fs.files k,
        dirs := fun d => if d = p ∨ pathInside p d then false else fs.dirs d }
  else none

/-! ## Artifact paths built by the source's `format!` calls -/

/-- `format!("{dir_path}{sep}crabSafe.ts")`: the SingleFile target. -/
def singleTargetOf (c : ProjectChoices) : String :=
  (parse_path c.chosen_directory).1 ++ (parse_path c.chosen_directory).2 ++ "crabSafe.ts"

/-- `format!("{dir_path}{sep}crabSafe")`: the SplitFiles directory. -/
def splitDirOf (c : ProjectChoices) : String :=
  (parse_path c.chosen_directory).1 ++ (parse_path c.chosen_directory).2 ++ "crabSafe"

/-- `format!("{fin_dir}{sep}{file_name}")`: a per-feature file in split mode. -/
def splitFilePath (c : ProjectChoices) (file_name : String) : String :=
  splitDirOf c ++ (parse_path c.chosen_directory).2 ++ file_name

/-! ## Settings Store (`settings_finder/mod.rs`)

The settings-file state is `Option Json`: `none` when `copy-paste.json` is
absent, `some doc` when it holds the parsed document `doc`. -/

/-- Error taxonomy of the settings / materialization layer. -/
inductive SettingsError where
  /-- `bail!` in `find_settings`: the namespaced key held an unparseable
  configuration; carries the key and file named by the message. -/
  | invalidSettings : String → String → SettingsError
  /-- `fs::read_to_string(FILE_NAME)?` failed: settings file absent. -/
  | fileAbsent : SettingsError
  /-- `as_object_mut` failed in `remove_completely`: document not an object. -/
  | objectExpected : SettingsError
  /-- `serde_json` index panic in `save_settings`: document neither object
  nor null. -/
  | indexPanic : SettingsError
  /-- `fs::create_dir` failed: split directory already exists. -/
  | dirExists : SettingsError
  /-- panic in `recreate`: `remove_dir_all` failed. -/
  | recreateFailed : SettingsError
deriving DecidableEq, Repr

/-- `find_settings`: load the tool's record from the settings document. -/
def find_settings (st : Option Json) : Except SettingsError (Option ProjectChoices) :=
  match st with
  | none => Except.ok none
  | some doc =>
    match jsonGet doc "crabSafe" with
    | some settings_value =>
      match ProjectChoices.fromJson settings_value with
      | some found_config => Except.ok (some found_config)
      | none => Except.error (SettingsError.invalidSettings "crabSafe" "copy-paste.json")
    | none => Except.ok none

/-- `save_settings`: create the file with only the namespaced key, or
set/replace that key in the existing document.  `serde_json`'s index
assignment turns a null document into an object and panics on any other
non-object document. -/
def save_settings (choices : ProjectChoices) (st : Option Json) : Except SettingsError Json :=
  match st with
  | none => Except.ok (Json.obj [("crabSafe", choices.toJson)])
  | some doc =>
    match doc with
    | Json.null => Except.ok (Json.obj (setA [] "crabSafe" choices.toJson))
    | Json.obj kvs => Except.ok (Json.obj (setA kvs "crabSafe" choices.toJson))
    | _ => Except.error SettingsError.indexPanic

/-- The artifact-deletion step of `remove_completely`: remove the
SingleFile target or the SplitFiles directory (the source appends a
trailing separator to the directory path); the `Result` is only logged,
so a failed removal leaves the state unchanged. -/
def removeArtifactQuiet (choices : ProjectChoices) (fs : FsState) : FsState :=
  match choices.modularity with
  | Modularity.SingleFile => fsRemoveFileQuiet fs (singleTargetOf choices)
  | Modularity.SplitFiles =>
    match fsRemoveDirAll fs (splitDirOf choices ++ (parse_path choices.chosen_directory).2) with
    | some fs3 => fs3
    | none => fs

/-- `remove_completely`: delete the artifact (file or directory; a failure
there is only logged), then drop the namespaced key from the settings
document, deleting the file when no keys remain. -/
def remove_completely (choices : ProjectChoices) (fs : FsState) (st : Option Json) :
    Except SettingsError (FsState × Option Json) :=
  let fs2 := removeArtifactQuiet choices fs
  match st with
  | none => Except.error SettingsError.fileAbsent
  | some doc =>
    match doc with
    | Json.obj kvs =>
      let kvs2 := eraseA kvs "crabSafe"
      if kvs2.isEmpty then Except.ok (fs2, none)
      else Except.ok (fs2, some (Json.obj kvs2))
    | _ => Except.error SettingsError.objectExpected

/-! ## Materialization Engine (`models/project_choices.rs`) -/

/-- `filter_out`: drop the lines that contain the `exclude` string. -/
def filter_out (lines : List String) (exclude : String) : List String :=
  lines.filter fun line => !(rustContains line exclude)

/-- Does `line.trim()` start with the `import` keyword? (the predicate of
the line filter inside `gen_single_filedata`). -/
def isImportLine (line : String) : Bool :=
  rustStartsWith (rustTrim line) "import"

/-- The imperative loop of `gen_single_filedata`: walk the payloads,
splitting each into lines, diverting every line whose trimmed form starts
with the `import` keyword into the accumulated import list and joining the
remaining lines back; bodies are appended with `push_str` (no separator). -/
def genStep (acc : String × List String) (ts_file : String) : String × List String :=
  let lines := rustSplitNl ts_file
  let res := lines.foldl
    (fun (p : List String × List String) line =>
      if isImportLine line then (p.1, p.2 ++ [line]) else (p.1 ++ [line], p.2))
    ([], acc.2)
  (acc.1 ++ rustJoinNl res.1, res.2)

/-- The loop itself: fold `genStep` over the payloads starting from an
empty body and no collected imports. -/
def gen_loop (relevant_files : List String) : String × List String :=
  relevant_files.foldl genStep ("", [])

/-- `ProjectChoices::gen_single_filedata`: merge the payloads, filter the
collected import lines (`http` lines only outside Deno, `"./` lines
always), and prepend the surviving import block when it is meaningful. -/
def gen_single_filedata (runtime : Runtime) (relevant_files : List String) : String :=
  let r := gen_loop relevant_files
  let implementation_str := r.1
  let import_lines := r.2
  let import_lines :=
    if runtime ≠ Runtime.Deno then filter_out import_lines "http" else import_lines
  let import_lines := rustJoinNl (filter_out import_lines "\"./")
  let import_lines :=
    if (rustTrim import_lines).length = 0 then "" else import_lines ++ "\n\n"
  import_lines ++ rustTrim implementation_str

/-- The `(implementation, file name)` pairs `ProjectChoices::handle` builds
from the resolved feature list; the payload map `impl` stands for
`Feature::get_implementation`, whose template blobs are opaque. -/
def relevantFiles (impl : Feature → String) (c : ProjectChoices) : List (String × String) :=
  (c.feature_set.get_feature_list).map fun feature => (impl feature, feature.get_file_name)

/-- The payload list that reaches `gen_single_filedata` in SingleFile mode:
outside Deno, entries named `parsers.ts` are filtered away first. -/
def singleFileImpls (impl : Feature → String) (c : ProjectChoices) : List String :=
  ((relevantFiles impl c).filter fun t =>
      if c.runtime ≠ Runtime.Deno ∧ t.2 = "parsers.ts" then false else true).map
    fun t => t.1

/-- `ProjectChoices::handle`: materialize the configuration (one merged
file, or a fresh `crabSafe` directory of per-feature files), then persist
the configuration through `save_settings`. -/
def ProjectChoices.handle (impl : Feature → String) (c : ProjectChoices)
    (fs : FsState) (st : Option Json) : Except SettingsError (FsState × Option Json) :=
  match c.modularity with
  | Modularity.SingleFile =>
    let fin_string := gen_single_filedata c.runtime (singleFileImpls impl c)
    let fs1 := fsWrite fs (singleTargetOf c) fin_string
    match save_settings c st with
    | Except.ok doc => Except.ok (fs1, some doc)
    | Except.error e => Except.error e
  | Modularity.SplitFiles =>
    match fsCreateDir fs (splitDirOf c) with
    | none => Except.error SettingsError.dirExists
    | some fs1 =>
      let fs2 := (relevantFiles impl c).foldl
        (fun acc fc => fsWrite acc (splitFilePath c fc.2) fc.1) fs1
      match save_settings c st with
      | Except.ok doc => Except.ok (fs2, some doc)
      | Except.error e => Except.error e

/-! ## Modify-session handlers (`inquire_handler/other_times/mod.rs`) -/

/-- `recreate`: `remove_dir_all` then `create_dir_all` on the given path;
the caller panics if the removal fails. -/
def recreate (s : String) (fs : FsState) : Option FsState :=
  (fsRemoveDirAll fs s).map fun fs1 => fsCreateDirAll fs1 s

/-- `handle_delete_crabsafe`: on a confirmed answer, run
`remove_completely`; otherwise do nothing. -/
def handle_delete_crabsafe (confirmAnswer : Bool) (c : ProjectChoices)
    (fs : FsState) (st : Option Json) : Except SettingsError (FsState × Option Json) :=
  if confirmAnswer then remove_completely c fs st else Except.ok (fs, st)

/-- The interactive answers consumed by `handle_delete_package`:
the "delete the whole package instead?" confirm offered when the remainder
is empty, the inner confirm of `handle_delete_crabsafe`, and the
"overwrite the crabSafe implementation?" confirm. -/
structure RemoveAnswers where
  deleteWhole : Bool
  confirmDeleteCrabsafe : Bool
  overwrite : Bool

/-- `handle_delete_package`: drop the selected features from the current
list.  When the remainder is empty and the user confirms, the whole
artifact is deleted; in *every other case* control falls through to the
overwrite confirm, after which the feature set is replaced by the custom
remainder, split mode recreates the chosen directory, and `handle`
re-materializes. -/
def handle_delete_package (impl : Feature → String) (c : ProjectChoices)
    (selected_features : List Feature) (ans : RemoveAnswers)
    (fs : FsState) (st : Option Json) : Except SettingsError (FsState × Option Json) :=
  let init_features := c.feature_set.get_feature_list
  let features := init_features.filter fun f => !(selected_features.contains f)
  if features.length = 0 ∧ ans.deleteWhole then
    handle_delete_crabsafe ans.confirmDeleteCrabsafe c fs st
  else
    if ans.overwrite then
      let c2 := { c with feature_set := ChosenFeatures.Custom features }
      match c2.modularity with
      | Modularity.SplitFiles =>
        match recreate c2.chosen_directory fs with
        | none => Except.error SettingsError.recreateFailed
        | some fs1 => c2.handle impl fs1 st
      | Modularity.SingleFile => c2.handle impl fs st
    else Except.ok (fs, st)

/-! ## Spec-level descriptions used to state the claims

These follow the specification's wording and are compared against the
source-level definitions above. -/

/-- Concatenation of a list of lists. -/
def concatAll {α : Type} : List (List α) → List α
  | [] => []
  | a :: r => a ++ concatAll r

/-- Spec view: the `import`-keyword lines of all payloads, in payload and
line order, duplicates kept. -/
def importsOf (files : List String) : List String :=
  concatAll (files.map fun f => (rustSplitNl f).filter isImportLine)

/-- Spec view: the merged body — each payload with its `import` lines
removed and the remaining lines re-joined, payloads concatenated with no
separator. -/
def bodyOf (files : List String) : String :=
  concatStrings (files.map fun f => rustJoinNl ((rustSplitNl f).filter fun l => !(isImportLine l)))

/-- Spec view: a collected import line survives when it does not contain
`http` (unless the runtime is Deno, where the `http` rule is off) and does
not contain `"./`. -/
def survivingImports (runtime : Runtime) (files : List String) : List String :=
  (importsOf files).filter fun l =>
    (decide (runtime = Runtime.Deno) || !(rustContains l "http")) && !(rustContains l "\"./")

/-! ## Basic string lemmas -/

theorem strExt {a b : String} (h : a.data = b.data) : a = b := by
  cases a; cases b; exact congrArg String.mk h

theorem strAppend_assoc (a b c : String) : a ++ b ++ c = a ++ (b ++ c) :=
  strExt (by simp)

theorem strEmpty_append (s : String) : "" ++ s = s :=
  strExt (by simp)

theorem strAppend_empty (s : String) : s ++ "" = s :=
  strExt (by simp)

/-! ## The merge loop of `gen_single_filedata`, characterised -/

theorem lineLoop_eq (lines : List String) (k i : List String) :
    lines.foldl
        (fun (p : List String × List String) line =>
          if isImportLine line then (p.1, p.2 ++ [line]) else (p.1 ++ [line], p.2))
        (k, i) =
      (k ++ lines.filter (fun l => !(isImportLine l)), i ++ lines.filter isImportLine) := by
  induction lines generalizing k i with
  | nil => simp
  | cons a t ih =>
    cases h : isImportLine a with
    | true => simp [h, ih, List.filter_cons]
    | false => simp [h, ih, List.filter_cons]

theorem genStep_eq (s : String) (i : List String) (f : String) :
    genStep (s, i) f =
      (s ++ rustJoinNl ((rustSplitNl f).filter fun l => !(isImportLine l)),
        i ++ (rustSplitNl f).filter isImportLine) := by
  simp [genStep, lineLoop_eq]

theorem gen_loop_aux (files : List String) (s0 : String) (i0 : List String) :
    files.foldl genStep (s0, i0) = (s0 ++ bodyOf files, i0 ++ importsOf files) := by
  induction files generalizing s0 i0 with
  | nil => simp [bodyOf, importsOf, concatStrings, concatAll, strAppend_empty]
  | cons f t ih =>
    rw [List.foldl_cons, genStep_eq, ih]
    simp [bodyOf, importsOf, concatStrings, concatAll, strAppend_assoc, List.append_assoc]

theorem gen_loop_eq (files : List String) :
    gen_loop files = (bodyOf files, importsOf files) := by
  have h := gen_loop_aux files "" []
  simpa [gen_loop, strEmpty_append] using h

/-! ## Emptiness of the joined import block -/

theorem mem_dropWhileKeep {α : Type} {p : α → Bool} {l : List α} {c : α}
    (hc : c ∈ l) (hp : p c = false) : c ∈ l.dropWhile p := by
  induction l with
  | nil => cases hc
  | cons a t ih =>
    cases ha : p a with
    | false =>
      rw [List.dropWhile_cons_of_neg (by simp [ha])]
      exact hc
    | true =>
      rw [List.dropWhile_cons_of_pos (by simp [ha])]
      rcases List.mem_cons.mp hc with h | h
      · subst h; rw [ha] at hp; cases hp
      · exact ih h

theorem mem_of_mem_dropWhile {α : Type} {p : α → Bool} {l : List α} {c : α}
    (h : c ∈ l.dropWhile p) : c ∈ l :=
  List.Sublist.mem h (List.dropWhile_sublist p)

theorem rustTrim_length_ne_zero {s : String} {c : Char}
    (hc : c ∈ s.data) (hw : c.isWhitespace = false) : (rustTrim s).length ≠ 0 := by
  have h1 : c ∈ s.data.dropWhile Char.isWhitespace := mem_dropWhileKeep hc hw
  have h2 : c ∈ (s.data.dropWhile Char.isWhitespace).reverse.dropWhile Char.isWhitespace :=
    mem_dropWhileKeep (List.mem_reverse.mpr h1) hw
  have h3 : c ∈ ((s.data.dropWhile Char.isWhitespace).reverse.dropWhile Char.isWhitespace).reverse :=
    List.mem_reverse.mpr h2
  have h4 := List.ne_nil_of_mem h3
  simpa [rustTrim, String.length, List.length_eq_zero] using h4

theorem mem_data_of_mem_trim {s : String} {c : Char}
    (h : c ∈ (rustTrim s).data) : c ∈ s.data := by
  have h1 : c ∈ (s.data.dropWhile Char.isWhitespace).reverse.dropWhile Char.isWhitespace :=
    List.mem_reverse.mp h
  have h2 : c ∈ (s.data.dropWhile Char.isWhitespace).reverse := mem_of_mem_dropWhile h1
  exact mem_of_mem_dropWhile (List.mem_reverse.mp h2)

theorem head_mem_of_isPrefixOf {a : Char} {p l : List Char}
    (h : (a :: p).isPrefixOf l = true) : a ∈ l := by
  cases l with
  | nil => simp [List.isPrefixOf] at h
  | cons b t =>
    simp only [List.isPrefixOf, Bool.and_eq_true, beq_iff_eq] at h
    exact h.1 ▸ List.mem_cons_self _ _

theorem importLine_has_i {l : String} (h : isImportLine l = true) : 'i' ∈ l.data := by
  have hp : ('i' :: "mport".data).isPrefixOf (rustTrim l).data = true := by
    have : "import".data = 'i' :: "mport".data := by decide
    simpa [isImportLine, rustStartsWith, this] using h
  exact mem_data_of_mem_trim (head_mem_of_isPrefixOf hp)

theorem i_mem_joinNl_head {x : String} {l : List String}
    (h : 'i' ∈ x.data) : 'i' ∈ (rustJoinNl (x :: l)).data := by
  cases l with
  | nil => simpa [rustJoinNl, List.intercalate] using h
  | cons b t =>
    simp [rustJoinNl, List.intercalate]
    exact Or.inl h

theorem trim_joinNl_eq_zero_iff {lines : List String}
    (hall : ∀ l ∈ lines, isImportLine l = true) :
    ((rustTrim (rustJoinNl lines)).length = 0) ↔ (lines = []) := by
  cases lines with
  | nil => decide
  | cons x t =>
    have hx : isImportLine x = true := hall x (List.mem_cons_self _ _)
    have hi : 'i' ∈ (rustJoinNl (x :: t)).data := i_mem_joinNl_head (importLine_has_i hx)
    have hne := rustTrim_length_ne_zero hi (by decide)
    simp [hne]

theorem mem_importsOf {l : String} {files : List String} (h : l ∈ importsOf files) :
    isImportLine l = true := by
  induction files with
  | nil => simp [importsOf, concatAll] at h
  | cons f t ih =>
    simp only [importsOf, concatAll, List.map_cons, List.mem_append] at h
    rcases h with h | h
    · exact (List.mem_filter.mp h).2
    · exact ih (by simpa [importsOf] using h)

/-- C2. SingleFile merge: `gen_single_filedata` equals the spec-level
description — every line whose trimmed form starts with the `import`
keyword is removed from the body and collected in order; a collected line
containing `http` is dropped iff the runtime is not Deno; a collected line
containing `"./` is always dropped; surviving lines are only filtered,
never deduplicated (the result is a `List.filter` of the collected lines,
which preserves multiplicity); and the output is the surviving import
block, a blank line, then the concatenated trimmed body — the block and
blank line appearing exactly when at least one import line survives. -/
theorem c2_single_file_merge (runtime : Runtime) (files : List String) :
    gen_single_filedata runtime files =
      if survivingImports runtime files = [] then rustTrim (bodyOf files)
      else rustJoinNl (survivingImports runtime files) ++ "\n\n" ++ rustTrim (bodyOf files) := by
  have hsurv : filter_out
      (if runtime ≠ Runtime.Deno then filter_out (importsOf files) "http" else importsOf files)
      "\"./" = survivingImports runtime files := by
    by_cases hr : runtime = Runtime.Deno
    · subst hr
      simp only [ne_eq, not_true_eq_false, if_neg, filter_out, survivingImports, ite_false]
      apply List.filter_congr
      intro a _
      simp
    · simp only [ne_eq, hr, not_false_eq_true, if_pos, filter_out, survivingImports,
        ite_true, List.filter_filter]
      apply List.filter_congr
      intro a _
      simp [decide_eq_false hr, Bool.and_comm]
  have hall : ∀ l ∈ survivingImports runtime files, isImportLine l = true := by
    intro l hl
    simp only [survivingImports, List.mem_filter] at hl
    exact mem_importsOf hl.1
  have hcond := trim_joinNl_eq_zero_iff hall
  simp only [gen_single_filedata, gen_loop_eq]
  rw [hsurv]
  by_cases h : survivingImports runtime files = []
  · rw [if_pos (hcond.mpr h), if_pos h, strEmpty_append]
  · rw [if_neg (fun hlen => h (hcond.mp hlen)), if_neg h]

/-! ## C1: the Deno-only module asymmetry -/

theorem get_file_name_eq_parsers {f : Feature} :
    f.get_file_name = "parsers.ts" ↔ f = Feature.Parsers := by
  cases f <;> decide

theorem strAppend_left_cancel {a b c : String} (h : a ++ b = a ++ c) : b = c := by
  have h2 := congrArg String.data h
  simp only [String.data_append, List.append_cancel_left_eq] at h2
  exact strExt h2

theorem singleImpls_filter (impl : Feature → String) (r : Runtime)
    (h : r ≠ Runtime.Deno) (fs : List Feature) :
    ((fs.map fun f => (impl f, f.get_file_name)).filter fun t =>
        if r ≠ Runtime.Deno ∧ t.2 = "parsers.ts" then false else true).map (fun t => t.1) =
      (fs.filter fun f => f != Feature.Parsers).map impl := by
  induction fs with
  | nil => rfl
  | cons f t ih =>
    by_cases hf : f = Feature.Parsers
    · subst hf
      simp only [List.map_cons, List.filter_cons]
      rw [if_neg (by simp [h, Feature.get_file_name]), if_neg (by simp)]
      exact ih
    · have hname : f.get_file_name ≠ "parsers.ts" := fun hh => hf (get_file_name_eq_parsers.mp hh)
      simp only [List.map_cons, List.filter_cons]
      rw [if_pos (by simp [hname]), if_pos (by simp [hf])]
      simp only [List.map_cons]
      rw [ih]

theorem foldl_fsWrite_ne (entries : List (String × String)) (fs : FsState)
    (pathOf : String × String → String) (target : String)
    (hnone : ∀ e ∈ entries, pathOf e ≠ target) :
    ((entries.foldl (fun acc e => fsWrite acc (pathOf e) e.1) fs).files) target =
      fs.files target := by
  induction entries generalizing fs with
  | nil => rfl
  | cons e t ih =>
    rw [List.foldl_cons, ih _ fun e2 he2 => hnone e2 (List.mem_cons_of_mem _ he2)]
    have hne : ¬(target = pathOf e) := fun hh => hnone e (List.mem_cons_self _ _) hh.symm
    simp [fsWrite, hne]

theorem foldl_fsWrite_lookup (entries : List (String × String)) (fs : FsState)
    (pathOf : String × String → String) (target v : String)
    (hex : ∃ e, e ∈ entries ∧ pathOf e = target)
    (hall : ∀ e ∈ entries, pathOf e = target → e.1 = v) :
    ((entries.foldl (fun acc e => fsWrite acc (pathOf e) e.1) fs).files) target = some v := by
  induction entries generalizing fs with
  | nil =>
    rcases hex with ⟨e, he, _⟩
    cases he
  | cons e t ih =>
    rw [List.foldl_cons]
    by_cases ht : ∃ e2, e2 ∈ t ∧ pathOf e2 = target
    · exact ih _ ht fun e2 he2 hp => hall e2 (List.mem_cons_of_mem _ he2) hp
    · rcases hex with ⟨e0, he0, hp0⟩
      have heq : e0 = e := by
        rcases List.mem_cons.mp he0 with hh | hh
        · exact hh
        · exact absurd ⟨e0, hh, hp0⟩ ht
      subst heq
      have hv : e0.1 = v := hall e0 (List.mem_cons_self _ _) hp0
      rw [foldl_fsWrite_ne t _ pathOf target fun e2 he2 hp => ht ⟨e2, he2, hp⟩]
      simp [fsWrite, hp0, hv]

/-- C1. Materialization asymmetry of the Deno-only module: whenever the
resolved feature list contains `Parsers`, (i) in SingleFile mode with a
non-Deno runtime the payload list handed to the merge step equals the
payloads of the non-`Parsers` features only — the `Parsers` payload is
excluded before concatenation; (ii) in SplitFiles mode, for *every*
runtime, a successful `handle` leaves `parsers.ts` in the split directory
holding the `Parsers` payload — no Deno-only exclusion in split mode. -/
theorem c1_parsers_asymmetry (impl : Feature → String) (c : ProjectChoices)
    (fs : FsState) (st : Option Json)
    (hmem : Feature.Parsers ∈ c.feature_set.get_feature_list) :
    (c.runtime ≠ Runtime.Deno →
      singleFileImpls impl c =
        ((c.feature_set.get_feature_list).filter fun f => f != Feature.Parsers).map impl) ∧
    (∀ fs2 st2, c.modularity = Modularity.SplitFiles →
      ProjectChoices.handle impl c fs st = Except.ok (fs2, st2) →
      fs2.files (splitFilePath c "parsers.ts") = some (impl Feature.Parsers)) := by
  constructor
  · intro h
    simp only [singleFileImpls, relevantFiles]
    exact singleImpls_filter impl c.runtime h _
  · intro fs2 st2 hmod hok
    simp only [ProjectChoices.handle, hmod] at hok
    cases hcd : fsCreateDir fs (splitDirOf c) with
    | none => rw [hcd] at hok; cases hok
    | some fs1 =>
      rw [hcd] at hok
      cases hsv : save_settings c st with
      | error e => rw [hsv] at hok; cases hok
      | ok doc =>
        rw [hsv] at hok
        have hfs2 : fs2 = (relevantFiles impl c).foldl
            (fun acc fc => fsWrite acc (splitFilePath c fc.2) fc.1) fs1 := by
          cases hok; rfl
        subst hfs2
        apply foldl_fsWrite_lookup (relevantFiles impl c) fs1 (fun fc => splitFilePath c fc.2)
          (splitFilePath c "parsers.ts") (impl Feature.Parsers)
        · exact ⟨(impl Feature.Parsers, Feature.Parsers.get_file_name),
            List.mem_map_of_mem _ hmem, rfl⟩
        · intro e he hp
          rcases List.mem_map.mp he with ⟨f, hfmem, hfe⟩
          have hname : e.2 = "parsers.ts" := strAppend_left_cancel hp
          subst hfe
          have : f = Feature.Parsers := get_file_name_eq_parsers.mp hname
          rw [this]

/-- Concrete payload map for witnesses: each feature's payload is a
one-line marker string. -/
def wImpl : Feature → String := fun f => "payload " ++ f.get_file_name

/-- Concrete SplitFiles configuration for the C1 witness. -/
def c1cW : ProjectChoices :=
  ⟨Runtime.NodeJs, "d/", ChosenFeatures.Custom [Feature.Core, Feature.Parsers],
    Modularity.SplitFiles⟩

/-- Empty filesystem for the C1 witness. -/
def c1fsW : FsState := ⟨fun _ => none, fun _ => false⟩

/-- The filesystem produced by `handle` on the C1 witness inputs. -/
def c1fs2W : FsState :=
  match ProjectChoices.handle wImpl c1cW c1fsW none with
  | Except.ok r => r.1
  | Except.error _ => c1fsW

/-- The settings state produced by `handle` on the C1 witness inputs. -/
def c1st2W : Option Json :=
  match ProjectChoices.handle wImpl c1cW c1fsW none with
  | Except.ok r => r.2
  | Except.error _ => none

theorem c1_parsers_asymmetry_witness :
    (singleFileImpls wImpl c1cW =
        ((c1cW.feature_set.get_feature_list).filter fun f => f != Feature.Parsers).map wImpl) ∧
    c1fs2W.files (splitFilePath c1cW "parsers.ts") = some (wImpl Feature.Parsers) :=
  ⟨(c1_parsers_asymmetry wImpl c1cW c1fsW none (by decide)).1 (by decide),
    (c1_parsers_asymmetry wImpl c1cW c1fsW none (by decide)).2 c1fs2W c1st2W rfl rfl⟩

/-! ## C6: the Choice Builder -/

/-- C6. `build` fails naming the first unset field in the fixed order
[runtime, destination, feature set, modularity]; with all four setters
called it returns the configuration holding exactly the set values. -/
theorem c6_builder (b : ProjectBuilder) :
    (b.runtime = none → b.build = Except.error BuildField.runtime) ∧
    (b.runtime ≠ none → b.chosen_directory = none →
      b.build = Except.error BuildField.destination) ∧
    (b.runtime ≠ none → b.chosen_directory ≠ none → b.feature_set = none →
      b.build = Except.error BuildField.featureSet) ∧
    (b.runtime ≠ none → b.chosen_directory ≠ none → b.feature_set ≠ none →
      b.modularity = none → b.build = Except.error BuildField.modularity) ∧
    (∀ r d f m,
      ProjectBuilder.build
          ((((ProjectBuilder.new.set_runtime r).set_chosen_dir d).set_feature_set f).set_modularity m) =
        Except.ok ⟨r, d, f, m⟩) := by
  refine ⟨?_, ?_, ?_, ?_, ?_⟩
  · intro h1
    simp [ProjectBuilder.build, h1]
  · intro h1 h2
    rcases hr : b.runtime with _ | r
    · exact absurd hr h1
    · simp [ProjectBuilder.build, hr, h2]
  · intro h1 h2 h3
    rcases hr : b.runtime with _ | r
    · exact absurd hr h1
    rcases hd : b.chosen_directory with _ | d
    · exact absurd hd h2
    simp [ProjectBuilder.build, hr, hd, h3]
  · intro h1 h2 h3 h4
    rcases hr : b.runtime with _ | r
    · exact absurd hr h1
    rcases hd : b.chosen_directory with _ | d
    · exact absurd hd h2
    rcases hf : b.feature_set with _ | f
    · exact absurd hf h3
    simp [ProjectBuilder.build, hr, hd, hf, h4]
  · intro r d f m
    rfl

/-- Builder missing only the modularity field, for the C6 witness. -/
def c6bW : ProjectBuilder :=
  ((ProjectBuilder.new.set_runtime Runtime.Deno).set_chosen_dir "d").set_feature_set
    (ChosenFeatures.Preset FeatureSet.All)

theorem c6_builder_witness :
    c6bW.build = Except.error BuildField.modularity ∧
    (c6bW.set_modularity Modularity.SingleFile).build =
      Except.ok ⟨Runtime.Deno, "d", ChosenFeatures.Preset FeatureSet.All,
        Modularity.SingleFile⟩ :=
  ⟨(c6_builder c6bW).2.2.2.1 (by decide) (by decide) (by decide) rfl,
    (c6_builder c6bW).2.2.2.2 Runtime.Deno "d" (ChosenFeatures.Preset FeatureSet.All)
      Modularity.SingleFile⟩

/-! ## C5: loading behaviour of the Settings Store -/

/-- C5. `find_settings` returns `none` exactly when the settings file is
absent or present without the `crabSafe` key; a present key whose value
does not parse as a configuration is an `InvalidSettingsError` naming the
key and the file, not `none`. -/
theorem c5_load (st : Option Json) :
    (find_settings st = Except.ok none ↔
      st = none ∨ ∃ doc, st = some doc ∧ jsonGet doc "crabSafe" = none) ∧
    (∀ doc v, st = some doc → jsonGet doc "crabSafe" = some v →
      ProjectChoices.fromJson v = none →
      find_settings st = Except.error (SettingsError.invalidSettings "crabSafe" "copy-paste.json")) := by
  constructor
  · cases st with
    | none => simp [find_settings]
    | some doc =>
      cases hg : jsonGet doc "crabSafe" with
      | none => simp [find_settings, hg]
      | some v =>
        cases hp : ProjectChoices.fromJson v with
        | none => simp [find_settings, hg, hp]
        | some cfg => simp [find_settings, hg, hp]
  · intro doc v hst hg hp
    subst hst
    simp [find_settings, hg, hp]

theorem c5_load_witness :
    find_settings (some (Json.obj [("crabSafe", Json.num 42)])) =
      Except.error (SettingsError.invalidSettings "crabSafe" "copy-paste.json") :=
  (c5_load _).2 _ (Json.num 42) rfl rfl rfl

/-! ## Association-list lemmas for the settings document -/

theorem lookupA_setA_self {α : Type} (l : List (String × α)) (k : String) (v : α) :
    lookupA (setA l k v) k = some v := by
  induction l with
  | nil => simp [setA, lookupA]
  | cons p t ih =>
    rcases p with ⟨k2, w⟩
    by_cases h : k2 = k
    · simp [setA, h, lookupA]
    · simp [setA, h, lookupA, ih]

theorem lookupA_setA_ne {α : Type} (l : List (String × α)) (k k2 : String) (v : α)
    (h : k2 ≠ k) : lookupA (setA l k v) k2 = lookupA l k2 := by
  induction l with
  | nil =>
    have h2 : ¬(k = k2) := fun hh => h hh.symm
    simp [setA, lookupA, h2]
  | cons p t ih =>
    rcases p with ⟨k3, w⟩
    by_cases h3 : k3 = k
    · subst h3
      have h2 : ¬(k3 = k2) := fun hh => h hh.symm
      simp [setA, lookupA, h2]
    · simp only [setA, if_neg h3, lookupA]
      by_cases h32 : k3 = k2
      · simp [h32]
      · simp [h32, ih]

theorem lookupA_eraseA_ne {α : Type} (l : List (String × α)) (k k2 : String)
    (h : k2 ≠ k) : lookupA (eraseA l k) k2 = lookupA l k2 := by
  induction l with
  | nil => simp [eraseA]
  | cons p t ih =>
    rcases p with ⟨k3, w⟩
    by_cases h3 : k3 = k
    · subst h3
      have h2 : ¬(k3 = k2) := fun hh => h hh.symm
      simp [eraseA, lookupA, h2]
    · simp only [eraseA, if_neg h3, lookupA]
      by_cases h32 : k3 = k2
      · simp [h32]
      · simp [h32, ih]

theorem lookupA_eq_none_of_not_mem {α : Type} (l : List (String × α)) (k : String)
    (h : k ∉ l.map Prod.fst) : lookupA l k = none := by
  induction l with
  | nil => rfl
  | cons p t ih =>
    rcases p with ⟨k2, w⟩
    simp only [List.map_cons, List.mem_cons] at h
    push_neg at h
    have h2 : ¬(k2 = k) := fun hh => h.1 hh.symm
    simp [lookupA, h2, ih h.2]

theorem lookupA_eraseA_self {α : Type} (l : List (String × α)) (k : String)
    (hnd : (l.map Prod.fst).Nodup) : lookupA (eraseA l k) k = none := by
  induction l with
  | nil => rfl
  | cons p t ih =>
    rcases p with ⟨k2, w⟩
    simp only [List.map_cons, List.nodup_cons] at hnd
    by_cases h : k2 = k
    · subst h
      simp [eraseA, lookupA_eq_none_of_not_mem t k2 hnd.1]
    · simp [eraseA, h, lookupA, ih hnd.2]

/-! ## C8: persistence round-trip -/

theorem runtime_roundtrip (r : Runtime) : Runtime.fromJson r.toJson = some r := by
  cases r <;> rfl

theorem modularity_roundtrip (m : Modularity) : Modularity.fromJson m.toJson = some m := by
  cases m <;> rfl

theorem featureSet_roundtrip (p : FeatureSet) : FeatureSet.fromJson p.toJson = some p := by
  cases p <;> rfl

theorem feature_roundtrip (f : Feature) : featureFromJson f.toJson = some f := by
  cases f <;> rfl

theorem features_roundtrip (fs : List Feature) :
    featuresFromJson (fs.map Feature.toJson) = some fs := by
  induction fs with
  | nil => rfl
  | cons f t ih => simp [featuresFromJson, feature_roundtrip, ih]

theorem chosenFeatures_roundtrip (cf : ChosenFeatures) :
    ChosenFeatures.fromJson cf.toJson = some cf := by
  cases cf with
  | Preset p =>
    simp [ChosenFeatures.toJson, ChosenFeatures.fromJson, jsonGet, lookupA,
      featureSet_roundtrip]
  | Custom fs =>
    simp [ChosenFeatures.toJson, ChosenFeatures.fromJson, jsonGet, lookupA,
      features_roundtrip]

theorem projectChoices_roundtrip (c : ProjectChoices) :
    ProjectChoices.fromJson c.toJson = some c := by
  rcases c with ⟨r, d, f, m⟩
  simp [ProjectChoices.toJson, ProjectChoices.fromJson, jsonGet, lookupA,
    runtime_roundtrip, chosenFeatures_roundtrip, modularity_roundtrip]

/-- C8. Round-trip: on any settings state where `save_settings` succeeds
(file absent, or a null/object document), `save_settings` then
`find_settings` returns a configuration deep-equal to the original —
runtime, directory string, chosen features (order included) and
modularity all survive. -/
theorem c8_round_trip (c : ProjectChoices) (st : Option Json)
    (hst : st = none ∨ st = some Json.null ∨ ∃ kvs, st = some (Json.obj kvs)) :
    ∃ doc, save_settings c st = Except.ok doc ∧
      find_settings (some doc) = Except.ok (some c) := by
  rcases hst with rfl | rfl | ⟨kvs, rfl⟩
  · refine ⟨Json.obj [("crabSafe", c.toJson)], rfl, ?_⟩
    simp [find_settings, jsonGet, lookupA, projectChoices_roundtrip]
  · refine ⟨Json.obj (setA [] "crabSafe" c.toJson), rfl, ?_⟩
    simp [find_settings, jsonGet, setA, lookupA, projectChoices_roundtrip]
  · refine ⟨Json.obj (setA kvs "crabSafe" c.toJson), rfl, ?_⟩
    simp [find_settings, jsonGet, lookupA_setA_self, projectChoices_roundtrip]

/-- Concrete configuration for the C8 witness. -/
def c8cW : ProjectChoices :=
  ⟨Runtime.ClientSide, "proj", ChosenFeatures.Custom [Feature.Result, Feature.Core],
    Modularity.SingleFile⟩

theorem c8_round_trip_witness :
    find_settings (some (Json.obj [("other", Json.num 1), ("crabSafe", c8cW.toJson)])) =
      Except.ok (some c8cW) := by
  rcases c8_round_trip c8cW (some (Json.obj [("other", Json.num 1)]))
      (Or.inr (Or.inr ⟨_, rfl⟩)) with ⟨doc, hsave, hload⟩
  rw [show save_settings c8cW (some (Json.obj [("other", Json.num 1)])) =
      Except.ok (Json.obj [("other", Json.num 1), ("crabSafe", c8cW.toJson)]) from rfl] at hsave
  injection hsave with hdoc
  rw [hdoc]
  exact hload

/-! ## Path lemmas for the artifact-deletion step -/

theorem sep_cases (s : String) :
    (parse_path s).2 = "/" ∨ (parse_path s).2 = "\\" := by
  unfold parse_path
  rcases h1 : rustStripSuffix s "/" with _ | r1
  · rcases h2 : rustStripSuffix s "\\" with _ | r2
    · by_cases h3 : rustContains s "/" <;> simp [h3]
    · simp
  · simp

theorem strip_append_slash (x : String) : stripTrailingSep (x ++ "/") = x := by
  cases x with
  | mk l =>
    show stripTrailingSep ⟨l ++ ['/']⟩ = ⟨l⟩
    unfold stripTrailingSep
    rw [if_pos (Or.inl (List.getLast?_concat _))]
    apply strExt
    show (l ++ ['/']).dropLast = l
    simp

theorem strip_append_backslash (x : String) : stripTrailingSep (x ++ "\\") = x := by
  cases x with
  | mk l =>
    show stripTrailingSep ⟨l ++ ['\\']⟩ = ⟨l⟩
    unfold stripTrailingSep
    rw [if_pos (Or.inr (List.getLast?_concat _))]
    apply strExt
    show (l ++ ['\\']).dropLast = l
    simp

theorem strip_splitPath (c : ProjectChoices) :
    stripTrailingSep (splitDirOf c ++ (parse_path c.chosen_directory).2) = splitDirOf c := by
  rcases sep_cases c.chosen_directory with hs | hs <;> rw [hs]
  · exact strip_append_slash _
  · exact strip_append_backslash _

theorem removeArtifact_single_none (c : ProjectChoices) (fs : FsState)
    (h : c.modularity = Modularity.SingleFile) :
    (removeArtifactQuiet c fs).files (singleTargetOf c) = none := by
  simp [removeArtifactQuiet, h, fsRemoveFileQuiet]

theorem removeArtifact_split_dirs (c : ProjectChoices) (fs : FsState)
    (h : c.modularity = Modularity.SplitFiles) :
    (removeArtifactQuiet c fs).dirs (splitDirOf c) = false := by
  simp only [removeArtifactQuiet, h]
  cases hrm : fsRemoveDirAll fs (splitDirOf c ++ (parse_path c.chosen_directory).2) with
  | some fs3 =>
    unfold fsRemoveDirAll at hrm
    rw [strip_splitPath] at hrm
    by_cases hd : fs.dirs (splitDirOf c)
    · rw [if_pos hd] at hrm
      injection hrm with hfs3
      rw [← hfs3]
      simp
    · rw [if_neg hd] at hrm
      cases hrm
  | none =>
    unfold fsRemoveDirAll at hrm
    rw [strip_splitPath] at hrm
    by_cases hd : fs.dirs (splitDirOf c)
    · rw [if_pos hd] at hrm
      cases hrm
    · simpa using hd

theorem removeArtifact_single_absent (c : ProjectChoices) (fs : FsState)
    (h : c.modularity = Modularity.SingleFile)
    (habs : fs.files (singleTargetOf c) = none) : removeArtifactQuiet c fs = fs := by
  simp only [removeArtifactQuiet, h, fsRemoveFileQuiet]
  cases fs with
  | mk files dirs =>
    simp only []
    congr 1
    funext k
    by_cases hk : k = singleTargetOf c
    · subst hk
      simp only [if_pos rfl]
      exact habs.symm
    · simp [hk]

theorem removeArtifact_split_absent (c : ProjectChoices) (fs : FsState)
    (h : c.modularity = Modularity.SplitFiles)
    (habs : fs.dirs (splitDirOf c) = false) : removeArtifactQuiet c fs = fs := by
  simp only [removeArtifactQuiet, h]
  unfold fsRemoveDirAll
  rw [strip_splitPath]
  simp [habs]

theorem remove_completely_obj (c : ProjectChoices) (fs : FsState) (kvs : List (String × Json)) :
    remove_completely c fs (some (Json.obj kvs)) =
      if (eraseA kvs "crabSafe").isEmpty
      then Except.ok (removeArtifactQuiet c fs, none)
      else Except.ok (removeArtifactQuiet c fs, some (Json.obj (eraseA kvs "crabSafe"))) := rfl

/-- C9. `remove_completely` deletes the artifact (file or directory per
modularity), treats an already-absent artifact as success (the state is
unchanged and the run continues), and in every case proceeds to drop the
`crabSafe` key from the settings document, deleting the settings file
exactly when no keys remain. -/
theorem c9_delete_artifact (c : ProjectChoices) (fs : FsState) (kvs : List (String × Json)) :
    ∃ fs2 st2, remove_completely c fs (some (Json.obj kvs)) = Except.ok (fs2, st2) ∧
      (st2 = none ↔ eraseA kvs "crabSafe" = []) ∧
      (∀ doc2, st2 = some doc2 → doc2 = Json.obj (eraseA kvs "crabSafe")) ∧
      (c.modularity = Modularity.SingleFile → fs2.files (singleTargetOf c) = none) ∧
      (c.modularity = Modularity.SplitFiles → fs2.dirs (splitDirOf c) = false) ∧
      (c.modularity = Modularity.SingleFile → fs.files (singleTargetOf c) = none → fs2 = fs) ∧
      (c.modularity = Modularity.SplitFiles → fs.dirs (splitDirOf c) = false → fs2 = fs) := by
  refine ⟨removeArtifactQuiet c fs,
    if (eraseA kvs "crabSafe").isEmpty then none
    else some (Json.obj (eraseA kvs "crabSafe")), ?_, ?_, ?_, ?_, ?_, ?_, ?_⟩
  · rw [remove_completely_obj]
    by_cases hemp : (eraseA kvs "crabSafe").isEmpty
    · rw [if_pos hemp, if_pos hemp]
    · rw [if_neg hemp, if_neg hemp]
  · by_cases hemp : (eraseA kvs "crabSafe").isEmpty
    · rw [if_pos hemp]
      simp [List.isEmpty_iff.mp hemp]
    · rw [if_neg hemp]
      have hne : ¬(eraseA kvs "crabSafe" = []) := fun hh => hemp (List.isEmpty_iff.mpr hh)
      simp [hne]
  · intro doc2 hd
    by_cases hemp : (eraseA kvs "crabSafe").isEmpty
    · rw [if_pos hemp] at hd
      cases hd
    · rw [if_neg hemp] at hd
      injection hd with hh
      exact hh.symm
  · exact removeArtifact_single_none c fs
  · exact removeArtifact_split_dirs c fs
  · exact removeArtifact_single_absent c fs
  · exact removeArtifact_split_absent c fs

/-- Concrete SingleFile configuration for the C9 witness. -/
def c9cW : ProjectChoices :=
  ⟨Runtime.Deno, "proj/", ChosenFeatures.Custom [Feature.Core], Modularity.SingleFile⟩

/-- Filesystem for the C9 witness: the artifact file exists. -/
def c9fsW : FsState :=
  ⟨fun k => if k = "proj/crabSafe.ts" then some "old" else none, fun d => d == "proj"⟩

theorem c9_delete_artifact_witness :
    (remove_completely c9cW c9fsW
        (some (Json.obj [("crabSafe", Json.num 1), ("other", Json.num 2)]))).map
        (fun r => (r.1.files (singleTargetOf c9cW), r.2)) =
      Except.ok (none, some (Json.obj [("other", Json.num 2)])) := by
  rcases c9_delete_artifact c9cW c9fsW [("crabSafe", Json.num 1), ("other", Json.num 2)] with
    ⟨fs2, st2, h1, h2, h3, h4, h5, h6, h7⟩
  rw [h1]
  simp only [Except.map]
  rw [h4 rfl]
  cases hst2 : st2 with
  | none =>
    have hh := h2.mp hst2
    simp [eraseA] at hh
  | some d =>
    rw [h3 d hst2]
    rfl

/-! ## C7: settings-file key isolation -/

/-- C7. `save_settings` on a document with unrelated keys sets or replaces
only the `crabSafe` key and preserves every other key's value;
`remove_completely`'s settings step removes only the `crabSafe` key, the
settings file afterwards no longer exists iff zero keys remain, and
otherwise the remaining keys are intact. -/
theorem c7_settings_key_isolation (c : ProjectChoices) (kvs : List (String × Json))
    (fs : FsState) (hnd : (kvs.map Prod.fst).Nodup) :
    (∃ doc, save_settings c (some (Json.obj kvs)) = Except.ok doc ∧
      jsonGet doc "crabSafe" = some c.toJson ∧
      ∀ k, k ≠ "crabSafe" → jsonGet doc k = lookupA kvs k) ∧
    (∃ fs2 st2, remove_completely c fs (some (Json.obj kvs)) = Except.ok (fs2, st2) ∧
      (st2 = none ↔ eraseA kvs "crabSafe" = []) ∧
      ∀ doc2, st2 = some doc2 →
        jsonGet doc2 "crabSafe" = none ∧
        ∀ k, k ≠ "crabSafe" → jsonGet doc2 k = lookupA kvs k) := by
  constructor
  · refine ⟨Json.obj (setA kvs "crabSafe" c.toJson), rfl, ?_, ?_⟩
    · simp [jsonGet, lookupA_setA_self]
    · intro k hk
      simp [jsonGet, lookupA_setA_ne kvs "crabSafe" k c.toJson hk]
  · refine ⟨removeArtifactQuiet c fs,
      if (eraseA kvs "crabSafe").isEmpty then none
      else some (Json.obj (eraseA kvs "crabSafe")), ?_, ?_, ?_⟩
    · rw [remove_completely_obj]
      by_cases hemp : (eraseA kvs "crabSafe").isEmpty
      · rw [if_pos hemp, if_pos hemp]
      · rw [if_neg hemp, if_neg hemp]
    · by_cases hemp : (eraseA kvs "crabSafe").isEmpty
      · rw [if_pos hemp]
        simp [List.isEmpty_iff.mp hemp]
      · rw [if_neg hemp]
        have hne : ¬(eraseA kvs "crabSafe" = []) := fun hh => hemp (List.isEmpty_iff.mpr hh)
        simp [hne]
    · intro doc2 hd
      by_cases hemp : (eraseA kvs "crabSafe").isEmpty
      · rw [if_pos hemp] at hd
        cases hd
      · rw [if_neg hemp] at hd
        injection hd with hh
        rw [← hh]
        constructor
        · simp [jsonGet, lookupA_eraseA_self kvs "crabSafe" hnd]
        · intro k hk
          simp [jsonGet, lookupA_eraseA_ne kvs "crabSafe" k hk]

theorem c7_settings_key_isolation_witness :
    jsonGet (Json.obj (setA [("other", Json.num 1)] "crabSafe" c9cW.toJson)) "other" =
      some (Json.num 1) ∧
    jsonGet (Json.obj (setA [("other", Json.num 1)] "crabSafe" c9cW.toJson)) "crabSafe" =
      some c9cW.toJson := by
  rcases (c7_settings_key_isolation c9cW [("other", Json.num 1)] c9fsW (by decide)).1 with
    ⟨doc, hsave, hkey, hothers⟩
  have hdoc : doc = Json.obj (setA [("other", Json.num 1)] "crabSafe" c9cW.toJson) := by
    rw [show save_settings c9cW (some (Json.obj [("other", Json.num 1)])) =
        Except.ok (Json.obj (setA [("other", Json.num 1)] "crabSafe" c9cW.toJson)) from rfl]
      at hsave
    injection hsave with hh
    exact hh.symm
  refine ⟨?_, hdoc ▸ hkey⟩
  rw [← hdoc, hothers "other" (by decide)]
  rfl

/-! ## C3: removing every feature falls through to materialization -/

/-- SingleFile configuration with the single feature `Core`, for C3. -/
def c3cW : ProjectChoices :=
  ⟨Runtime.NodeJs, "proj/", ChosenFeatures.Custom [Feature.Core], Modularity.SingleFile⟩

/-- Filesystem holding the previous artifact, for C3. -/
def c3fsW : FsState :=
  ⟨fun k => if k = "proj/crabSafe.ts" then some "old" else none, fun d => d == "proj"⟩

/-- Settings document recording `c3cW`, for C3. -/
def c3stW : Option Json := some (Json.obj [("crabSafe", c3cW.toJson)])

/-- C3 (code bug). Removing the only feature, answering *No* to "delete
the whole package instead?" and *Yes* to the overwrite confirm, runs
`handle` on a zero-feature configuration: the artifact is rewritten with
an empty payload set (here an empty merged file) and the settings record
becomes `Custom []` — contradicting the source's own comment that a
packageless artifact makes no sense. -/
theorem c3_empty_removal_materializes :
    (handle_delete_package wImpl c3cW [Feature.Core]
        ⟨false, false, true⟩ c3fsW c3stW).map
        (fun r => (r.1.files "proj/crabSafe.ts",
          (r.2.bind fun d => jsonGet d "crabSafe").bind ProjectChoices.fromJson)) =
      Except.ok (some "",
        some ⟨Runtime.NodeJs, "proj/", ChosenFeatures.Custom [], Modularity.SingleFile⟩) := by
  rfl

/-! ## C4: `recreate` purges the whole destination directory -/

/-- SplitFiles configuration with features `Core` and `Option`, for C4. -/
def c4cW : ProjectChoices :=
  ⟨Runtime.Deno, "proj/", ChosenFeatures.Custom [Feature.Core, Feature.Option],
    Modularity.SplitFiles⟩

/-- Filesystem with the split artifact *and* an unrelated user file in the
destination directory, for C4. -/
def c4fsW : FsState :=
  ⟨fun k =>
      if k = "proj/other.txt" then some "keep"
      else if k = "proj/crabSafe/core.ts" then some (wImpl Feature.Core)
      else if k = "proj/crabSafe/option.ts" then some (wImpl Feature.Option)
      else none,
    fun d => d == "proj" || d == "proj/crabSafe"⟩

/-- Settings document recording `c4cW`, for C4. -/
def c4stW : Option Json := some (Json.obj [("crabSafe", c4cW.toJson)])

/-- C4 (code bug). Removing `Option` (non-empty remainder `Core`) in
split mode calls `recreate` on the *chosen directory itself*, not on the
`crabSafe` subdirectory: afterwards the split directory does contain
exactly the remaining feature file, but the unrelated `proj/other.txt`
that lived outside `crabSafe` has been destroyed. -/
theorem c4_recreate_destroys_destination :
    (handle_delete_package wImpl c4cW [Feature.Option]
        ⟨false, false, true⟩ c4fsW c4stW).map
        (fun r => (r.1.files "proj/other.txt", r.1.files "proj/crabSafe/core.ts",
          r.1.files "proj/crabSafe/option.ts")) =
      Except.ok (none, some (wImpl Feature.Core), none) := by
  rfl

/-! ## C10: path-separator inference -/

/-- Claim-side separator rule, following the claim's words: join with `/`
when the string ends with `/` or contains `/` anywhere, and with `\`
otherwise. -/
def claimC10Sep (s : String) : String :=
  if rustEndsWith s "/" || rustContains s "/" then "/" else "\\"

/-- C10 counterexample: `"a/b\\"` ends with a backslash but contains a
slash; `parse_path` joins with `\` while the claim's rule yields `/`. -/
theorem c10_counterexample :
    parse_path "a/b\\" = ("a/b", "\\") ∧ claimC10Sep "a/b\\" = "/" ∧
      ("\\" : String) ≠ "/" := by
  decide

theorem take_length_sub_one {α : Type} (l : List α) : l.take (l.length - 1) = l.dropLast := by
  induction l with
  | nil => rfl
  | cons a t ih =>
    cases t with
    | nil => rfl
    | cons b t2 =>
      show (a :: b :: t2).take (t2.length + 1) = (a :: b :: t2).dropLast
      rw [List.take_succ_cons, List.dropLast_cons₂]
      exact congrArg (List.cons a) ih

theorem stripSuffix_eq_some {s pat : String} (h : rustEndsWith s pat = true) :
    rustStripSuffix s pat = some ⟨s.data.take (s.data.length - pat.data.length)⟩ := by
  unfold rustStripSuffix
  rw [show pat.data.isSuffixOf s.data = true from h]
  simp

theorem stripSuffix_eq_none {s pat : String} (h : rustEndsWith s pat = false) :
    rustStripSuffix s pat = none := by
  unfold rustStripSuffix
  rw [show pat.data.isSuffixOf s.data = false from h]
  simp

theorem hasSubstring_singleton {c : Char} {l : List Char} :
    hasSubstring [c] l = true ↔ c ∈ l := by
  induction l with
  | nil => simp [hasSubstring, List.isEmpty]
  | cons d t ih =>
    simp only [hasSubstring, Bool.or_eq_true, List.mem_cons]
    rw [ih]
    constructor
    · rintro (h | h)
      · left
        simpa [List.isPrefixOf] using h
      · right
        exact h
    · rintro (h | h)
      · left
        simp [List.isPrefixOf, h]
      · right
        exact h

theorem endsWith_single_mem {c : Char} {s : String} (h : rustEndsWith s ⟨[c]⟩ = true) :
    c ∈ s.data := by
  have h2 : ([c] : List Char).isPrefixOf s.data.reverse = true := by
    simpa [rustEndsWith, List.isSuffixOf] using h
  exact List.mem_reverse.mp (head_mem_of_isPrefixOf h2)

/-- C10 (amended). `parse_path` strips at most one trailing `/` or `\`;
the separator is `/` when the string ends with `/`, else `\` when it ends
with `\`, else `/` exactly when the string contains `/` anywhere, else
`\`; in particular a bare name with no separator characters joins with a
backslash. -/
theorem c10_parse_path (s : String) :
    (parse_path s =
      if rustEndsWith s "/" then (strDropLast s, "/")
      else if rustEndsWith s "\\" then (strDropLast s, "\\")
      else (s, if rustContains s "/" then "/" else "\\")) ∧
    (rustContains s "/" = false → rustContains s "\\" = false →
      parse_path s = (s, "\\")) := by
  have hmain : parse_path s =
      if rustEndsWith s "/" then (strDropLast s, "/")
      else if rustEndsWith s "\\" then (strDropLast s, "\\")
      else (s, if rustContains s "/" then "/" else "\\") := by
    cases h1 : rustEndsWith s "/" with
    | true =>
      have htake : (⟨s.data.take (s.data.length - ("/" : String).data.length)⟩ : String) =
          strDropLast s := by
        have hlen : ("/" : String).data.length = 1 := rfl
        rw [hlen, take_length_sub_one]
        rfl
      simp only [parse_path, stripSuffix_eq_some h1, htake, h1]
      simp
    | false =>
      cases h2 : rustEndsWith s "\\" with
      | true =>
        have htake : (⟨s.data.take (s.data.length - ("\\" : String).data.length)⟩ : String) =
            strDropLast s := by
          have hlen : ("\\" : String).data.length = 1 := rfl
          rw [hlen, take_length_sub_one]
          rfl
        simp only [parse_path, stripSuffix_eq_none h1, stripSuffix_eq_some h2, htake, h1, h2]
        simp
      | false =>
        simp only [parse_path, stripSuffix_eq_none h1, stripSuffix_eq_none h2, h1, h2]
        by_cases h3 : rustContains s "/" = true <;> simp [h3]
  refine ⟨hmain, ?_⟩
  intro hs hb
  have h1 : rustEndsWith s "/" = false := by
    cases hh : rustEndsWith s "/" with
    | false => rfl
    | true =>
      have hmem : '/' ∈ s.data := endsWith_single_mem hh
      have hc : rustContains s "/" = true := hasSubstring_singleton.mpr hmem
      rw [hc] at hs
      cases hs
  have h2 : rustEndsWith s "\\" = false := by
    cases hh : rustEndsWith s "\\" with
    | false => rfl
    | true =>
      have hmem : '\\' ∈ s.data := endsWith_single_mem hh
      have hc : rustContains s "\\" = true := hasSubstring_singleton.mpr hmem
      rw [hc] at hb
      cases hb
  rw [hmain, h1, h2, hs]
  simp

/-- C10 witness: a bare directory name with no separators joins with a
backslash, by the amended characterisation. -/
theorem c10_parse_path_witness : parse_path "mydir" = ("mydir", "\\") :=
  (c10_parse_path "mydir").2 (by decide) (by decide)

end CrabSafe
